import Mathlib

/-!
Verification development for the `create-era-app` project scaffolder.

The repository's two source variants of the CLI (`src/index.ts` and the copy
embedded in `scripts/setup-template.sh`) are shallowly embedded below:

* file contents are `List Char`;
* the JavaScript `String.prototype.replace` with a global literal pattern is
  modelled by a left-to-right, non-rescanning scanner (`replaceAll`), and the
  word-boundary regexes of the script variant by `wbReplaceAll`;
* the filesystem is a map from paths (`List String`) to optional contents;
* the control flow of `createApp` (which steps run, which failures are caught,
  and the resulting exit code) is modelled as a function from an environment of
  failure flags to an exit code and an ordered list of performed effects.
-/

/-- Characters of a string literal, used to write file contents. -/
def str (s : String) : List Char := s.data

/-- Decidable prefix test on character lists (literal regex match at the
current scan position). -/
def isPre : List Char → List Char → Bool
  | [], _ => true
  | _ :: _, [] => false
  | a :: p', b :: s' => decide (a = b) && isPre p' s'

/-- Decidable "the pattern occurs somewhere in the string" test. -/
def occurs (p : List Char) : List Char → Bool
  | [] => isPre p []
  | c :: t => isPre p (c :: t) || occurs p t

/-- One scan step of JavaScript `String.replace(/lit/g, r)`: at each position,
if the literal pattern matches, emit the replacement and resume after the
matched text (the replacement is not rescanned); otherwise keep the character.
The `Nat` argument is fuel, always instantiated with the string length. -/
def replGo (p r : List Char) : Nat → List Char → List Char
  | 0, s => s
  | _ + 1, [] => []
  | f + 1, c :: rest =>
    if isPre p (c :: rest) then r ++ replGo p r f ((c :: rest).drop p.length)
    else c :: replGo p r f rest

/-- JavaScript `content.replace(/p/g, r)` for a literal pattern `p`. -/
def replaceAll (p r s : List Char) : List Char := replGo p r s.length s

theorem isPre_length {p s : List Char} (h : isPre p s = true) :
    p.length ≤ s.length := by
  induction p generalizing s with
  | nil => simp
  | cons a p' ih =>
    cases s with
    | nil => simp [isPre] at h
    | cons b s' =>
      simp only [isPre, Bool.and_eq_true] at h
      simpa [List.length_cons, Nat.succ_le_succ_iff] using ih h.2

theorem isPre_exists {p s : List Char} (h : isPre p s = true) :
    ∃ t, s = p ++ t := by
  induction p generalizing s with
  | nil => exact ⟨s, rfl⟩
  | cons a p' ih =>
    cases s with
    | nil => simp [isPre] at h
    | cons b s' =>
      simp only [isPre, Bool.and_eq_true, decide_eq_true_eq] at h
      obtain ⟨t, ht⟩ := ih h.2
      exact ⟨t, by simp [h.1, ht]⟩

theorem isPre_refl (p : List Char) : isPre p p = true := by
  induction p with
  | nil => rfl
  | cons a p' ih => simp [isPre, ih]

theorem isPre_append_ext {p x : List Char} (z : List Char)
    (h : isPre p x = true) : isPre p (x ++ z) = true := by
  induction p generalizing x with
  | nil => rfl
  | cons a p' ih =>
    cases x with
    | nil => simp [isPre] at h
    | cons b x' =>
      simp only [isPre, Bool.and_eq_true] at h
      simp [isPre, h.1, ih h.2]

theorem isPre_head {a b : Char} {p' s' : List Char}
    (h : isPre (a :: p') (b :: s') = true) : a = b := by
  simp only [isPre, Bool.and_eq_true, decide_eq_true_eq] at h
  exact h.1

/-- A match of a pattern not containing `d` inside `x ++ d :: y` that starts
inside `x` lies entirely inside `x`. -/
theorem isPre_sep_split {p : List Char} {d : Char} (hd : d ∉ p) :
    ∀ {x y : List Char}, isPre p (x ++ d :: y) = true → isPre p x = true := by
  induction p with
  | nil => intro x y _; rfl
  | cons a p' ih =>
    intro x y h
    cases x with
    | nil =>
      exfalso
      have : a = d := isPre_head (by simpa using h)
      exact hd (this ▸ List.mem_cons_self a p')
    | cons b x' =>
      have hab : a = b := isPre_head (by simpa using h)
      have h' : isPre p' (x' ++ d :: y) = true := by
        simp only [List.cons_append, isPre, Bool.and_eq_true] at h
        exact h.2
      have hd' : d ∉ p' := fun hm => hd (List.mem_cons_of_mem a hm)
      simp [isPre, hab, ih hd' h']

theorem occurs_of_isPre {p s : List Char} (hp : p ≠ []) (h : isPre p s = true) :
    occurs p s = true := by
  cases s with
  | nil =>
    cases p with
    | nil => exact absurd rfl hp
    | cons a p' => simp [isPre] at h
  | cons c t => simp [occurs, h]

theorem occurs_cons_mono {p t : List Char} (x : Char)
    (h : occurs p t = true) : occurs p (x :: t) = true := by
  simp [occurs, h]

theorem occurs_mem {p s : List Char} {c : Char}
    (h : occurs p s = true) (hc : c ∈ p) : c ∈ s := by
  induction s with
  | nil =>
    cases p with
    | nil => cases hc
    | cons a p' => simp [occurs, isPre] at h
  | cons b t ih =>
    simp only [occurs, Bool.or_eq_true] at h
    cases h with
    | inl h =>
      obtain ⟨u, hu⟩ := isPre_exists h
      rw [hu]
      exact List.mem_append_left u hc
    | inr h => exact List.mem_cons_of_mem b (ih h)

/-- An occurrence in `x ++ d :: y` of a nonempty pattern avoiding `d` is an
occurrence in `x` or in `y`. -/
theorem occurs_append_sep {p : List Char} {d : Char} (hp : p ≠ []) (hd : d ∉ p) :
    ∀ {x y : List Char}, occurs p (x ++ d :: y) = true →
      occurs p x = true ∨ occurs p y = true := by
  intro x
  induction x with
  | nil =>
    intro y h
    simp only [List.nil_append, occurs, Bool.or_eq_true] at h
    cases h with
    | inl h =>
      exfalso
      cases p with
      | nil => exact hp rfl
      | cons a p' => exact hd (isPre_head h ▸ List.mem_cons_self a p')
    | inr h => exact Or.inr h
  | cons b x' ih =>
    intro y h
    simp only [List.cons_append, occurs, Bool.or_eq_true] at h
    cases h with
    | inl h =>
      have := @isPre_sep_split p d hd (b :: x') y (by simpa using h)
      exact Or.inl (occurs_of_isPre hp this)
    | inr h =>
      cases ih h with
      | inl h' => exact Or.inl (occurs_cons_mono b h')
      | inr h' => exact Or.inr h'

theorem occurs_false_head {p : List Char} {c : Char} {t : List Char}
    (h : occurs p (c :: t) = false) :
    isPre p (c :: t) = false ∧ occurs p t = false := by
  simpa [occurs] using h

theorem replGo_nil (p r : List Char) (f : Nat) : replGo p r f [] = [] := by
  cases f <;> rfl

/-- The scanner's result does not depend on the fuel, as long as the fuel
covers the length of the string and the pattern is nonempty. -/
theorem replGo_fuel (p r : List Char) (hp : p ≠ []) :
    ∀ (f g : Nat) (s : List Char), s.length ≤ f → s.length ≤ g →
      replGo p r f s = replGo p r g s := by
  intro f
  induction f with
  | zero =>
    intro g s hf _
    have hs : s = [] := List.eq_nil_of_length_eq_zero (Nat.le_zero.mp hf)
    subst hs
    simp [replGo_nil]
  | succ f ih =>
    intro g s hf hg
    cases s with
    | nil => simp [replGo_nil]
    | cons c rest =>
      cases g with
      | zero => simp at hg
      | succ g' =>
        have hplen : 1 ≤ p.length := by
          cases p with
          | nil => exact absurd rfl hp
          | cons a p' => simp
        simp only [replGo]
        by_cases hm : isPre p (c :: rest) = true
        · rw [hm]
          simp only [if_true]
          have hlen : ((c :: rest).drop p.length).length ≤ f := by
            simp only [List.length_drop]
            have := List.length_cons c rest ▸ hf
            omega
          have hlen' : ((c :: rest).drop p.length).length ≤ g' := by
            simp only [List.length_drop]
            have := List.length_cons c rest ▸ hg
            omega
          rw [ih g' _ hlen hlen']
        · rw [Bool.not_eq_true] at hm
          rw [hm]
          simp only [Bool.false_eq_true, if_false]
          have hlen : rest.length ≤ f := by
            have := List.length_cons c rest ▸ hf
            omega
          have hlen' : rest.length ≤ g' := by
            have := List.length_cons c rest ▸ hg
            omega
          rw [ih g' _ hlen hlen']

theorem replaceAll_nil (p r : List Char) : replaceAll p r [] = [] := rfl

theorem replaceAll_cons_match {p : List Char} (r : List Char) {c : Char}
    {t : List Char} (hp : p ≠ []) (h : isPre p (c :: t) = true) :
    replaceAll p r (c :: t) = r ++ replaceAll p r ((c :: t).drop p.length) := by
  have hplen : 1 ≤ p.length := by
    cases p with
    | nil => exact absurd rfl hp
    | cons a p' => simp
  show replGo p r (c :: t).length (c :: t) = _
  rw [List.length_cons]
  simp only [replGo, h, if_true]
  congr 1
  apply replGo_fuel p r hp
  · simp only [List.length_drop]; simp; omega
  · simp [List.length_drop]

theorem replaceAll_cons_nomatch {p : List Char} (r : List Char) {c : Char}
    {t : List Char} (h : isPre p (c :: t) = false) :
    replaceAll p r (c :: t) = c :: replaceAll p r t := by
  show replGo p r (c :: t).length (c :: t) = _
  rw [List.length_cons]
  simp [replGo, h, replaceAll]

/-- A pattern that does not occur is not replaced: the content is unchanged. -/
theorem replaceAll_no_occur {p : List Char} (r : List Char) :
    ∀ {s : List Char}, occurs p s = false → replaceAll p r s = s := by
  intro s
  induction s with
  | nil => intro _; rfl
  | cons c t ih =>
    intro h
    obtain ⟨h1, h2⟩ := occurs_false_head h
    rw [replaceAll_cons_nomatch r h1, ih h2]

/-- Replacing a pattern inside exactly that pattern yields the replacement. -/
theorem replaceAll_self {p : List Char} (r : List Char) (hp : p ≠ []) :
    replaceAll p r p = r := by
  cases hp' : p with
  | nil => exact absurd hp' hp
  | cons a p' =>
    rw [← hp']
    have h1 : isPre p p = true := isPre_refl p
    cases p with
    | nil => simp at hp'
    | cons b q =>
      rw [replaceAll_cons_match r hp h1]
      simp [List.drop_length, replaceAll_nil]

/-- The scanner distributes over a separator character that cannot appear in
the pattern: no match straddles the separator. -/
theorem replaceAll_sep_append {p : List Char} (r : List Char) {d : Char}
    (hp : p ≠ []) (hd : d ∉ p) :
    ∀ (k : Nat) (x : List Char), x.length ≤ k → ∀ (y : List Char),
      replaceAll p r (x ++ d :: y) = replaceAll p r x ++ d :: replaceAll p r y := by
  intro k
  induction k with
  | zero =>
    intro x hx y
    have hx0 : x = [] := List.eq_nil_of_length_eq_zero (Nat.le_zero.mp hx)
    subst hx0
    have hm : isPre p (d :: y) = false := by
      by_contra hcon
      rw [Bool.not_eq_false] at hcon
      cases p with
      | nil => exact hp rfl
      | cons a p' => exact hd (isPre_head hcon ▸ List.mem_cons_self a p')
    simp [replaceAll_cons_nomatch r hm, replaceAll_nil]
  | succ k ih =>
    intro x hx y
    cases x with
    | nil => exact ih [] (by simp) y
    | cons a x' =>
      have hplen : 1 ≤ p.length := by
        cases p with
        | nil => exact absurd rfl hp
        | cons b q => simp
      by_cases hm : isPre p (a :: x' ++ d :: y) = true
      · have hmx : isPre p (a :: x') = true := isPre_sep_split hd hm
        have hplex : p.length ≤ (a :: x').length := isPre_length hmx
        rw [show (a :: x') ++ d :: y = a :: (x' ++ d :: y) by simp] at hm
        rw [show ((a :: x') ++ d :: y : List Char) = a :: (x' ++ d :: y) by simp]
        rw [replaceAll_cons_match r hp hm, replaceAll_cons_match r hp hmx]
        have hdrop : (a :: (x' ++ d :: y)).drop p.length
            = (a :: x').drop p.length ++ d :: y := by
          rw [show (a :: (x' ++ d :: y) : List Char) = (a :: x') ++ d :: y by simp]
          exact List.drop_append_of_le_length hplex
        rw [hdrop]
        have hlen : ((a :: x').drop p.length).length ≤ k := by
          simp only [List.length_drop]
          have := List.length_cons a x' ▸ hx
          omega
        rw [ih _ hlen y]
        simp
      · have hmx : isPre p (a :: x') = false := by
          by_contra hcon
          rw [Bool.not_eq_false] at hcon
          exact hm (by simpa using isPre_append_ext (d :: y) hcon)
        rw [Bool.not_eq_true] at hm
        simp only [List.cons_append] at hm ⊢
        rw [replaceAll_cons_nomatch r hm, replaceAll_cons_nomatch r hmx]
        have hlen : x'.length ≤ k := by
          have := List.length_cons a x' ▸ hx
          omega
        rw [ih _ hlen y]
        simp

/-- The lowercase placeholder token `era` (first pattern of the rewriter). -/
def eraTok : List Char := str "era"

/-- The PascalCase placeholder token (second pattern of the rewriter). -/
def pascalTok : List Char := str "ElectronReactApp"

/-- The hyphenated placeholder token (third pattern of the rewriter). -/
def hyTok : List Char := str "electron-react-app"

/-- ASCII upper-casing of one character, as JavaScript
`String.prototype.toUpperCase` acts on the characters a name can contain. -/
def upChar (c : Char) : Char :=
  match c with
  | 'a' => 'A' | 'b' => 'B' | 'c' => 'C' | 'd' => 'D' | 'e' => 'E'
  | 'f' => 'F' | 'g' => 'G' | 'h' => 'H' | 'i' => 'I' | 'j' => 'J'
  | 'k' => 'K' | 'l' => 'L' | 'm' => 'M' | 'n' => 'N' | 'o' => 'O'
  | 'p' => 'P' | 'q' => 'Q' | 'r' => 'R' | 's' => 'S' | 't' => 'T'
  | 'u' => 'U' | 'v' => 'V' | 'w' => 'W' | 'x' => 'X' | 'y' => 'Y'
  | 'z' => 'Z'
  | c => c

/-- The replacement used for the PascalCase token:
`projectName.charAt(0).toUpperCase() + projectName.slice(1)`. -/
def toPascal : List Char → List Char
  | [] => []
  | c :: cs => upChar c :: cs

/-- A character allowed by the project-name regex `^[a-z0-9-]+$`. -/
def validChar (c : Char) : Bool := c.isLower || c.isDigit || decide (c = '-')

/-- The project-name regex `^[a-z0-9-]+$` of `getProjectName`. -/
def validName (s : List Char) : Bool := !s.isEmpty && s.all validChar

/-- The interactive prompt's `validate` callback: rejects input that is empty
after trimming, or that fails the project-name regex. -/
def promptValidate (input : List Char) : Bool :=
  !(input.all Char.isWhitespace) && validName input

/-- The rewrite performed on each enumerated file by `replaceProjectName` in
`src/index.ts`: the three global literal substitutions
`/era/g → n`, `/ElectronReactApp/g → toPascal n`,
`/electron-react-app/g → n`, applied in that order to the same content. -/
def pipelineA (n s : List Char) : List Char :=
  replaceAll hyTok n (replaceAll pascalTok (toPascal n) (replaceAll eraTok n s))

/-- Value of the `name` field of the generated `package.json` after a
`src/index.ts` run: `updatePackageJson` writes the project name `n` into the
manifest, and `replaceProjectName` then rewrites the manifest as well (its
ignore list does not exclude `package.json`).  The `name` field sits between
double quotes, a character that appears in no pattern, and the scan is
left-to-right, so the rewrite acts on the field value exactly as `pipelineA`
acts on `n` itself. -/
def manifestNameA (n : List Char) : List Char := pipelineA n n

/-- Content is token-free when none of the three placeholder tokens occurs in
it as a substring. -/
def tokenFree (s : List Char) : Bool :=
  !(occurs eraTok s) && !(occurs pascalTok s) && !(occurs hyTok s)

/-- A separator character: anything that can appear neither in a placeholder
token nor in a valid project name (nor in its capitalized form). -/
def sepChar (c : Char) : Bool := !(c.isAlpha || c.isDigit || decide (c = '-'))

/-- A block of content between separators that the rewriter handles exactly:
either a lone placeholder token, or content free of all tokens. -/
def goodBlock (b : List Char) : Prop :=
  b = eraTok ∨ b = pascalTok ∨ b = hyTok ∨ tokenFree b = true

instance : DecidablePred goodBlock := fun b => by unfold goodBlock; infer_instance

/-- Content assembled from blocks joined by single separator characters. -/
def joinBlocks : List Char → List (Char × List Char) → List Char
  | b0, [] => b0
  | b0, (d, b) :: rest => b0 ++ d :: joinBlocks b rest

theorem eraTok_ne_nil : eraTok ≠ [] := by decide

theorem pascalTok_ne_nil : pascalTok ≠ [] := by decide

theorem hyTok_ne_nil : hyTok ≠ [] := by decide

theorem sep_not_mem_era {d : Char} (hd : sepChar d = true) : d ∉ eraTok := by
  intro hm
  have : d.isAlpha = true := by
    have : d = 'e' ∨ d = 'r' ∨ d = 'a' := by
      simpa [eraTok, str] using hm
    rcases this with h | h | h <;> subst h <;> decide
  simp [sepChar, this] at hd

theorem sep_not_mem_pascal {d : Char} (hd : sepChar d = true) : d ∉ pascalTok := by
  intro hm
  have halpha : d.isAlpha = true := by
    have hmem : d ∈ str "ElectronReactApp" := hm
    simp only [str] at hmem
    fin_cases hmem <;> decide
  simp [sepChar, halpha] at hd

theorem sep_not_mem_hy {d : Char} (hd : sepChar d = true) : d ∉ hyTok := by
  intro hm
  have : d.isAlpha = true ∨ d = '-' := by
    have hmem : d ∈ str "electron-react-app" := hm
    simp only [str] at hmem
    fin_cases hmem <;> simp
  rcases this with h | h
  · simp [sepChar, h] at hd
  · subst h; simp [sepChar] at hd

theorem upChar_ne_e (c : Char) : upChar c ≠ 'e' := by
  unfold upChar
  split <;> simp_all

theorem validName_nonempty {n : List Char} (h : validName n = true) : n ≠ [] := by
  intro hn
  subst hn
  simp [validName] at h

theorem validName_chars {n : List Char} (h : validName n = true) :
    ∀ c ∈ n, validChar c = true := by
  simp only [validName, Bool.and_eq_true, List.all_eq_true] at h
  exact h.2

/-- A valid project name contains no uppercase character, hence the PascalCase
token cannot occur in it. -/
theorem validName_no_pascal {n : List Char} (h : validName n = true) :
    occurs pascalTok n = false := by
  by_contra hcon
  rw [Bool.not_eq_false] at hcon
  have hE : 'E' ∈ pascalTok := by decide
  have : 'E' ∈ n := occurs_mem hcon hE
  have := validName_chars h 'E' this
  simp [validChar] at this

/-- Capitalizing the first character of a token-free valid name keeps it
token-free: the tail is unchanged, and the new head can be the first character
of no token. -/
theorem toPascal_tokenFree {n : List Char} (hv : validName n = true)
    (hf : tokenFree n = true) : tokenFree (toPascal n) = true := by
  cases n with
  | nil => exact absurd rfl (validName_nonempty hv)
  | cons c cs =>
    simp only [tokenFree, Bool.and_eq_true, Bool.not_eq_true'] at hf ⊢
    obtain ⟨⟨hera, hpas⟩, hhy⟩ := hf
    have htail : ∀ p : List Char, occurs p (c :: cs) = false →
        occurs p cs = false := by
      intro p hp
      by_contra hcon
      rw [Bool.not_eq_false] at hcon
      rw [occurs_cons_mono c hcon] at hp
      cases hp
    have hcs : ∀ x ∈ cs, validChar x = true := by
      intro x hx
      exact validName_chars hv x (List.mem_cons_of_mem c hx)
    refine ⟨⟨?_, ?_⟩, ?_⟩
    · -- era cannot occur: not at the head (upChar c ≠ 'e'), not in the tail
      simp only [toPascal, occurs, Bool.or_eq_false_iff]
      constructor
      · by_contra hcon
        rw [Bool.not_eq_false] at hcon
        exact upChar_ne_e c (@isPre_head 'e' (upChar c) (str "ra") cs hcon).symm
      · exact htail _ hera
    · -- the PascalCase token needs an uppercase R in the tail
      simp only [toPascal, occurs, Bool.or_eq_false_iff]
      constructor
      · by_contra hcon
        rw [Bool.not_eq_false] at hcon
        have h2 : isPre (str "lectronReactApp") cs = true := by
          have := hcon
          simp only [pascalTok, str, isPre, Bool.and_eq_true] at this
          exact this.2
        obtain ⟨t, ht⟩ := isPre_exists h2
        have hR : 'R' ∈ cs := by
          rw [ht]
          exact List.mem_append_left t (by decide)
        have := hcs 'R' hR
        simp [validChar] at this
      · exact htail _ hpas
    · -- same for the hyphenated token, whose first character is also 'e'
      simp only [toPascal, occurs, Bool.or_eq_false_iff]
      constructor
      · by_contra hcon
        rw [Bool.not_eq_false] at hcon
        exact upChar_ne_e c (@isPre_head 'e' (upChar c) (str "lectron-react-app") cs hcon).symm
      · exact htail _ hhy

theorem tokenFree_parts {s : List Char} (h : tokenFree s = true) :
    occurs eraTok s = false ∧ occurs pascalTok s = false ∧
      occurs hyTok s = false := by
  simp only [tokenFree, Bool.and_eq_true, Bool.not_eq_true'] at h
  exact ⟨h.1.1, h.1.2, h.2⟩

theorem tokenFree_of_parts {s : List Char} (h1 : occurs eraTok s = false)
    (h2 : occurs pascalTok s = false) (h3 : occurs hyTok s = false) :
    tokenFree s = true := by
  simp [tokenFree, h1, h2, h3]

/-- What the `src/index.ts` rewriter makes of a single block: a lone token
becomes the (suitably capitalized) project name, token-free content is left
alone; in all cases the result is token-free when the name itself is. -/
theorem pipelineA_goodBlock {n : List Char} (hv : validName n = true)
    (hn : tokenFree n = true) :
    ∀ {b : List Char}, goodBlock b → tokenFree (pipelineA n b) = true := by
  intro b hb
  obtain ⟨hne, hnp, hnh⟩ := tokenFree_parts hn
  rcases hb with hb | hb | hb | hb
  · subst hb
    unfold pipelineA
    rw [replaceAll_self n eraTok_ne_nil,
      replaceAll_no_occur (toPascal n) (validName_no_pascal hv),
      replaceAll_no_occur n hnh]
    exact hn
  · subst hb
    have hcap := toPascal_tokenFree hv hn
    obtain ⟨_, _, hcaph⟩ := tokenFree_parts hcap
    unfold pipelineA
    rw [replaceAll_no_occur n (by decide : occurs eraTok pascalTok = false),
      replaceAll_self (toPascal n) pascalTok_ne_nil,
      replaceAll_no_occur n hcaph]
    exact hcap
  · subst hb
    unfold pipelineA
    rw [replaceAll_no_occur n (by decide : occurs eraTok hyTok = false),
      replaceAll_no_occur (toPascal n) (by decide : occurs pascalTok hyTok = false),
      replaceAll_self n hyTok_ne_nil]
    exact hn
  · obtain ⟨hbe, hbp, hbh⟩ := tokenFree_parts hb
    unfold pipelineA
    rw [replaceAll_no_occur n hbe, replaceAll_no_occur (toPascal n) hbp,
      replaceAll_no_occur n hbh]
    exact hb

/-- The three substitutions all distribute over a separator character. -/
theorem pipelineA_sep (n : List Char) {d : Char} (hd : sepChar d = true)
    (x y : List Char) :
    pipelineA n (x ++ d :: y) = pipelineA n x ++ d :: pipelineA n y := by
  unfold pipelineA
  rw [replaceAll_sep_append n eraTok_ne_nil (sep_not_mem_era hd)
      x.length x le_rfl y]
  rw [replaceAll_sep_append (toPascal n) pascalTok_ne_nil (sep_not_mem_pascal hd)
      (replaceAll eraTok n x).length (replaceAll eraTok n x) le_rfl
      (replaceAll eraTok n y)]
  rw [replaceAll_sep_append n hyTok_ne_nil (sep_not_mem_hy hd)
      (replaceAll pascalTok (toPascal n) (replaceAll eraTok n x)).length
      (replaceAll pascalTok (toPascal n) (replaceAll eraTok n x)) le_rfl
      (replaceAll pascalTok (toPascal n) (replaceAll eraTok n y))]

/-- Token-free pieces joined by a separator character stay token-free. -/
theorem tokenFree_join {x y : List Char} {d : Char} (hx : tokenFree x = true)
    (hy : tokenFree y = true) (hd : sepChar d = true) :
    tokenFree (x ++ d :: y) = true := by
  obtain ⟨hxe, hxp, hxh⟩ := tokenFree_parts hx
  obtain ⟨hye, hyp, hyh⟩ := tokenFree_parts hy
  have noocc : ∀ (p : List Char), p ≠ [] → d ∉ p → occurs p x = false →
      occurs p y = false → occurs p (x ++ d :: y) = false := by
    intro p hp hdp hpx hpy
    by_contra hcon
    rw [Bool.not_eq_false] at hcon
    rcases occurs_append_sep hp hdp hcon with h | h
    · rw [h] at hpx; cases hpx
    · rw [h] at hpy; cases hpy
  exact tokenFree_of_parts
    (noocc _ eraTok_ne_nil (sep_not_mem_era hd) hxe hye)
    (noocc _ pascalTok_ne_nil (sep_not_mem_pascal hd) hxp hyp)
    (noocc _ hyTok_ne_nil (sep_not_mem_hy hd) hxh hyh)

/-- A JavaScript regex word character, as used by the `\b` assertion. -/
def wordChar (c : Char) : Bool := c.isAlpha || c.isDigit || decide (c = '_')

/-- Match of `\b<p>\b(?!<look>)` at the current position, for a literal `p`
that begins and ends with a word character (true of all three placeholder
tokens): the preceding source character (if any) must be a non-word character,
the character after the match (if any) must be a non-word character, and the
optional negative lookahead must not match after the pattern. -/
def wbMatchAt (p : List Char) (look : Option (List Char)) (prev : Option Char)
    (s : List Char) : Bool :=
  isPre p s
  && (match prev with | none => true | some c => !wordChar c)
  && (match s.drop p.length with | [] => true | c :: _ => !wordChar c)
  && (match look with | none => true | some l => !(isPre l (s.drop p.length)))

/-- Scanner for the script variant's word-boundary regexes; `prev` is the
previous character of the source (`none` at the start of the content), and the
`Nat` argument is fuel, always instantiated with the string length. -/
def wbGo (p : List Char) (look : Option (List Char)) (r : List Char) :
    Nat → Option Char → List Char → List Char
  | 0, _, s => s
  | _ + 1, _, [] => []
  | f + 1, prev, c :: rest =>
    if wbMatchAt p look prev (c :: rest) then
      r ++ wbGo p look r f (some (p.getLastD c)) ((c :: rest).drop p.length)
    else c :: wbGo p look r f (some c) rest

/-- JavaScript `content.replace(/\bp\b(?!look)/g, r)` for a literal `p`. -/
def wbReplaceAll (p : List Char) (look : Option (List Char)) (r s : List Char) :
    List Char := wbGo p look r s.length none s

/-- The rewrite performed on each enumerated file by `replaceProjectName` in
the `scripts/setup-template.sh` variant: `/\bera\b(?!\.svg)/g → n`,
`/\bElectronReactApp\b/g → toPascal n`, `/\belectron-react-app\b/g → n`,
applied in that order to the same content. -/
def pipelineB (n s : List Char) : List Char :=
  wbReplaceAll hyTok none n
    (wbReplaceAll pascalTok none (toPascal n)
      (wbReplaceAll eraTok (some (str ".svg")) n s))

theorem wbGo_no_occur (p : List Char) (look : Option (List Char))
    (r : List Char) :
    ∀ {s : List Char} (f : Nat) (prev : Option Char), occurs p s = false →
      wbGo p look r f prev s = s := by
  intro s
  induction s with
  | nil => intro f prev _; cases f <;> rfl
  | cons c t ih =>
    intro f prev h
    obtain ⟨h1, h2⟩ := occurs_false_head h
    cases f with
    | zero => rfl
    | succ f' =>
      have hm : wbMatchAt p look prev (c :: t) = false := by
        simp [wbMatchAt, h1]
      simp only [wbGo, hm]
      simp [ih f' (some c) h2]

/-- A word-boundary pattern that does not even occur as a substring leaves the
content unchanged. -/
theorem wbReplaceAll_no_occur {p : List Char} (look : Option (List Char))
    (r : List Char) {s : List Char} (h : occurs p s = false) :
    wbReplaceAll p look r s = s :=
  wbGo_no_occur p look r s.length none h

/-- The script variant's rewriter leaves token-free content unchanged. -/
theorem pipelineB_tokenFree {n s : List Char} (h : tokenFree s = true) :
    pipelineB n s = s := by
  obtain ⟨h1, h2, h3⟩ := tokenFree_parts h
  unfold pipelineB
  rw [wbReplaceAll_no_occur _ _ h1, wbReplaceAll_no_occur _ _ h2,
    wbReplaceAll_no_occur _ _ h3]

/-- Apostrophe character of the generated source text. -/
def apos : Char := Char.ofNat 39

/-- Opening brace character of the generated source text. -/
def lb : Char := Char.ofNat 123

/-- Closing brace character of the generated source text. -/
def rb : Char := Char.ofNat 125

/-- The hardcoded replacement body written over `app/app.tsx` by
`removeWelcomeKit` (the template literal of `setup-template.sh`). -/
def welcomeFallback : List Char :=
  str "import " ++ [apos] ++ str "./styles/app.css" ++ [apos] ++
  str "\n\nexport default function App() " ++ [lb] ++
  str "\n  return (\n    <div className=\"flex items-center justify-center min-h-screen bg-background\">\n      <div className=\"text-center\">\n        <h1 className=\"text-4xl font-bold text-foreground mb-4\">\n          Welcome to your Electron App!\n        </h1>\n        <p className=\"text-muted-foreground\">\n          Start building your desktop application.\n        </p>\n      </div>\n    </div>\n  )\n" ++ [rb]

/-- A destination tree: file paths (as segment lists) to optional contents. -/
def FS : Type := List String → Option (List Char)

/-- Path of the copied package manifest. -/
def pkgPath : List String := ["package.json"]

/-- Path of the application entry point rewritten by `removeWelcomeKit`. -/
def appTsxPath : List String := ["app", "app.tsx"]

/-- Directory removed by `removeWelcomeKit`. -/
def welcomeKitPath : List String := ["app", "components", "welcome"]

/-- The glob pattern `*.log`: the file name ends with `.log`. -/
def endsWithDotLog (f : String) : Bool :=
  isPre (str ".log").reverse f.data.reverse

/-- Files skipped by the `src/index.ts` rewriter's ignore list
`['node_modules/**', 'dist/**', 'out/**', '.git/**', '*.log']`: everything
under the four directories, and root-level `*.log` files. -/
def ignoredA (p : List String) : Bool :=
  match p with
  | [] => false
  | [f] => endsWithDotLog f
  | d :: _ :: _ => d ∈ ["node_modules", "dist", "out", ".git"]

/-- The script variant's ignore list additionally contains `package.json`. -/
def ignoredB (p : List String) : Bool := ignoredA p || decide (p = pkgPath)

/-- Effect of `replaceProjectName` (index.ts variant) on the whole tree. -/
def rewriteFSA (n : List Char) (fs : FS) : FS :=
  fun p => if ignoredA p then fs p else (fs p).map (pipelineA n)

/-- Effect of `replaceProjectName` (script variant) on the whole tree. -/
def rewriteFSB (n : List Char) (fs : FS) : FS :=
  fun p => if ignoredB p then fs p else (fs p).map (pipelineB n)

/-- Recursive `fs.remove` of the welcome-kit directory. -/
def eraseWelcome (fs : FS) : FS :=
  fun p => if welcomeKitPath.isPrefixOf p then none else fs p

/-- `removeWelcomeKit`: delete the welcome-kit directory, then overwrite
`app/app.tsx` with the fixed fallback body.  The file is first read; if that
read fails (the file does not exist), the error is caught with a warning and
the overwrite does not happen. -/
def removeWelcomeKitFS (fs : FS) : FS :=
  if (eraseWelcome fs appTsxPath).isSome then
    fun p => if p = appTsxPath then some welcomeFallback else eraseWelcome fs p
  else eraseWelcome fs

/-- `generateProject` of the script variant, after the template copy: remove
the welcome kit when it was declined, rewrite the manifest (reading
`package.json` fails fatally when it is absent; the rewritten manifest content
is abstracted as `mrw`), then run the name rewriter over the tree. -/
def generateProjectB (mrw : List Char → List Char) (template : FS)
    (n : List Char) (welcomeKit : Bool) : Option FS :=
  let fs1 := if welcomeKit then template else removeWelcomeKitFS template
  (fs1 pkgPath).map (fun c =>
    let fs2 : FS := fun p => if p = pkgPath then some (mrw c) else fs1 p
    rewriteFSB n fs2)

/-- Failure environment of one run: which of the fallible steps would fail if
executed.  `dirExists` is the state of `<cwd>/<name>` before the run. -/
structure Env where
  dirExists : Bool
  copyFails : Bool
  manifestFails : Bool
  rewriteFails : Bool
  gitFails : Bool
  installFails : Bool

/-- Resolved project configuration (`ProjectConfig`).  `welcomeKit` exists in
the script variant only and is ignored by the `src/index.ts` model. -/
structure Config where
  git : Bool
  install : Bool
  packageManager : String
  welcomeKit : Bool

/-- Observable side effects of a run, in execution order. -/
inductive Event where
  | copyTemplate
  | removeWelcome
  | writeManifest
  | rewriteNames
  | warnRewrite
  | runGit
  | warnGit
  | runInstall (cmd : String)
  | warnInstall
deriving DecidableEq

/-- `getInstallCommand`: fixed mapping from the package-manager choice to the
install command, with `npm install` as the default branch. -/
def getInstallCommand (packageManager : String) : String :=
  if packageManager = "yarn" then "yarn install"
  else if packageManager = "pnpm" then "pnpm install"
  else if packageManager = "bun" then "bun install"
  else "npm install"

/-- `postCreate` (identical in both variants): run `git init` when enabled,
then run the install command when enabled; each subprocess failure is caught
locally and reported as a warning. -/
def postCreate (env : Env) (cfg : Config) : List Event :=
  (if cfg.git then
    Event.runGit :: (if env.gitFails then [Event.warnGit] else [])
  else []) ++
  (if cfg.install then
    Event.runInstall (getInstallCommand cfg.packageManager) ::
      (if env.installFails then [Event.warnInstall] else [])
  else [])

namespace IndexTs

/-- Control flow of `createApp` in `src/index.ts`, for a positionally supplied
project name (the `name` argument is used as given; no validation runs on it).
Returns the process exit code and the effects performed: the existing-directory
check exits before any mutation; failures of the copy, of the manifest
rewrite, or of `replaceProjectName` (which has no try/catch in this variant)
propagate to the top-level handler, which exits with code 1; git or install
failures are caught inside `postCreate`. -/
def createApp (env : Env) (cfg : Config) (name : List Char) : Nat × List Event :=
  if env.dirExists then (1, [])
  else if env.copyFails then (1, [])
  else if env.manifestFails then (1, [Event.copyTemplate])
  else if env.rewriteFails then (1, [Event.copyTemplate, Event.writeManifest])
  else (0, [Event.copyTemplate, Event.writeManifest, Event.rewriteNames]
    ++ postCreate env cfg)

end IndexTs

namespace ScriptTs

/-- Control flow of `createApp` in the `setup-template.sh` variant: as in
`IndexTs.createApp`, except that the welcome kit may be removed after the copy
and that `replaceProjectName` is wrapped in try/catch — a rewrite failure is
reported as a warning and the run continues. -/
def createApp (env : Env) (cfg : Config) (name : List Char) : Nat × List Event :=
  if env.dirExists then (1, [])
  else if env.copyFails then (1, [])
  else
    let ev1 := Event.copyTemplate ::
      (if cfg.welcomeKit then [] else [Event.removeWelcome])
    if env.manifestFails then (1, ev1)
    else (0, ev1 ++ [Event.writeManifest]
      ++ (if env.rewriteFails then [Event.warnRewrite] else [Event.rewriteNames])
      ++ postCreate env cfg)

end ScriptTs

/-- C1: if the target directory `<cwd>/<project-name>` already exists before
generation starts, both variants of `createApp` perform no filesystem
mutation at all and the process exits with a non-zero status. -/
theorem c1_existing_directory_aborts_without_mutation
    (env : Env) (cfg : Config) (name : List Char)
    (h : env.dirExists = true) :
    IndexTs.createApp env cfg name = (1, []) ∧
    ScriptTs.createApp env cfg name = (1, []) := by
  constructor <;> simp [IndexTs.createApp, ScriptTs.createApp, h]

/-- Witness for C1 at a concrete environment and configuration. -/
theorem c1_existing_directory_aborts_without_mutation_witness :
    IndexTs.createApp ⟨true, false, false, false, false, false⟩
        ⟨true, true, "npm", true⟩ (str "demo-app") = (1, []) ∧
    ScriptTs.createApp ⟨true, false, false, false, false, false⟩
        ⟨true, true, "npm", true⟩ (str "demo-app") = (1, []) :=
  c1_existing_directory_aborts_without_mutation _ _ _ rfl

/-- C2 (counterexample): for the valid project name `my-era`, which contains
the placeholder token `era` as a substring, the `src/index.ts` run does not
leave the manifest's `name` field equal to the project name — the rewriter,
whose ignore list does not exclude `package.json`, corrupts it to
`my-my-era`. -/
theorem c2_token_in_name_corrupts_manifest :
    validName (str "my-era") = true ∧
    manifestNameA (str "my-era") ≠ str "my-era" := by decide

/-- C2 (amended): after a successful `src/index.ts` run the manifest's `name`
field equals the project name `n` exactly, provided `n` contains no
placeholder token (`era`, `electron-react-app`) as a substring. -/
theorem c2_manifest_name_preserved (n : List Char)
    (hv : validName n = true)
    (h1 : occurs eraTok n = false) (h2 : occurs hyTok n = false) :
    manifestNameA n = n := by
  unfold manifestNameA pipelineA
  rw [replaceAll_no_occur n h1,
    replaceAll_no_occur (toPascal n) (validName_no_pascal hv),
    replaceAll_no_occur n h2]

/-- Witness for C2 (amended) at the concrete name `demo-app`. -/
theorem c2_manifest_name_preserved_witness :
    validName (str "demo-app") = true ∧
    manifestNameA (str "demo-app") = str "demo-app" :=
  ⟨by decide, c2_manifest_name_preserved _ (by decide) (by decide) (by decide)⟩

/-- C3 (counterexample): for the valid project name `my-era`, rewriting a file
that consists of the token `era` leaves an occurrence of `era` in the result:
the replacement text itself contains the token, so zero-occurrences fails for
names that contain a placeholder token. -/
theorem c3_token_in_name_leaves_token :
    validName (str "my-era") = true ∧
    occurs eraTok (pipelineA (str "my-era") (str "era")) = true := by decide

/-- C3 (amended): for every valid project name that contains no placeholder
token as a substring, and every file content made of blocks joined by
separator characters (characters that are neither letters nor digits nor
hyphens) in which each token occurrence stands as its own block, the
`src/index.ts` rewriter leaves zero occurrences of the placeholder tokens. -/
theorem c3_rewrite_leaves_no_tokens (n b0 : List Char)
    (rest : List (Char × List Char)) (hv : validName n = true)
    (hn : tokenFree n = true) (hb : goodBlock b0)
    (hrest : ∀ pr ∈ rest, sepChar pr.1 = true ∧ goodBlock pr.2) :
    tokenFree (pipelineA n (joinBlocks b0 rest)) = true := by
  induction rest generalizing b0 with
  | nil => exact pipelineA_goodBlock hv hn hb
  | cons pr rest ih =>
    obtain ⟨d, b⟩ := pr
    have hd : sepChar d = true := (hrest (d, b) (List.mem_cons_self _ _)).1
    have hbb : goodBlock b := (hrest (d, b) (List.mem_cons_self _ _)).2
    have hrest' : ∀ pr ∈ rest, sepChar pr.1 = true ∧ goodBlock pr.2 :=
      fun pr hpr => hrest pr (List.mem_cons_of_mem _ hpr)
    show tokenFree (pipelineA n (b0 ++ d :: joinBlocks b rest)) = true
    rw [pipelineA_sep n hd]
    exact tokenFree_join (pipelineA_goodBlock hv hn hb) (ih b hbb hrest') hd

/-- Witness for C3 (amended) on concrete content containing all three
tokens, separated by a space, a quote and a slash. -/
theorem c3_rewrite_leaves_no_tokens_witness :
    tokenFree (pipelineA (str "demo") (joinBlocks (str "x")
      [(' ', eraTok), ('"', pascalTok), ('/', hyTok)])) = true :=
  c3_rewrite_leaves_no_tokens _ _ _ (by decide) (by decide) (by decide)
    (by decide)

/-- C4 (counterexample): in `src/index.ts`, `replaceProjectName` has no
try/catch, so a rewrite failure propagates: the run exits with code 1 and no
warning is emitted — the failure is fatal, not best-effort. -/
theorem c4_rewrite_failure_fatal_in_index_ts :
    (IndexTs.createApp ⟨false, false, false, true, false, false⟩
      ⟨true, true, "npm", true⟩ (str "demo-app")).1 = 1 ∧
    Event.warnRewrite ∉ (IndexTs.createApp ⟨false, false, false, true, false, false⟩
      ⟨true, true, "npm", true⟩ (str "demo-app")).2 := by decide

/-- C4 (amended): only the `setup-template.sh` variant catches a failure of
the Name Rewriter, emits a warning and completes the run with exit code 0; in
the `src/index.ts` variant the same failure makes the run exit non-zero. -/
theorem c4_rewrite_failure_nonfatal_in_script_only
    (env : Env) (cfg : Config) (name : List Char)
    (h1 : env.dirExists = false) (h2 : env.copyFails = false)
    (h3 : env.manifestFails = false) (h4 : env.rewriteFails = true) :
    (ScriptTs.createApp env cfg name).1 = 0 ∧
    Event.warnRewrite ∈ (ScriptTs.createApp env cfg name).2 ∧
    (IndexTs.createApp env cfg name).1 = 1 := by
  refine ⟨?_, ?_, ?_⟩ <;>
    simp [ScriptTs.createApp, IndexTs.createApp, h1, h2, h3, h4]

/-- Witness for C4 (amended) at a concrete environment and configuration. -/
theorem c4_rewrite_failure_nonfatal_in_script_only_witness :
    (ScriptTs.createApp ⟨false, false, false, true, false, false⟩
      ⟨true, true, "npm", true⟩ (str "demo-app")).1 = 0 ∧
    Event.warnRewrite ∈ (ScriptTs.createApp ⟨false, false, false, true, false, false⟩
      ⟨true, true, "npm", true⟩ (str "demo-app")).2 ∧
    (IndexTs.createApp ⟨false, false, false, true, false, false⟩
      ⟨true, true, "npm", true⟩ (str "demo-app")).1 = 1 :=
  c4_rewrite_failure_nonfatal_in_script_only _ _ _ rfl rfl rfl rfl

/-- C5 (counterexample): the name `My App` does not match `^[a-z0-9-]+$` (the
interactive validator rejects it), yet when it is supplied positionally the
run performs its side effects and exits with code 0 — no validation happens
and nothing is fatal. -/
theorem c5_invalid_positional_name_not_rejected :
    promptValidate (str "My App") = false ∧
    (IndexTs.createApp ⟨false, false, false, false, false, false⟩
      ⟨true, true, "npm", true⟩ (str "My App")).1 = 0 ∧
    (IndexTs.createApp ⟨false, false, false, false, false, false⟩
      ⟨true, true, "npm", true⟩ (str "My App")).2 ≠ [] := by decide

/-- C5 (amended): a project name supplied positionally is trusted: whatever
the name (valid or rejected by the interactive validator), the run proceeds
through generation with side effects and exits 0 when no step fails; the
regex validation applies only inside the interactive prompt. -/
theorem c5_positional_name_bypasses_validation
    (env : Env) (cfg : Config) (name : List Char)
    (hne : name ≠ []) (hval : promptValidate name = false)
    (h1 : env.dirExists = false) (h2 : env.copyFails = false)
    (h3 : env.manifestFails = false) (h4 : env.rewriteFails = false) :
    (IndexTs.createApp env cfg name).1 = 0 ∧
    (IndexTs.createApp env cfg name).2 ≠ [] := by
  constructor <;> simp [IndexTs.createApp, h1, h2, h3, h4]

/-- Witness for C5 (amended) at the concrete invalid name `My App`. -/
theorem c5_positional_name_bypasses_validation_witness :
    (IndexTs.createApp ⟨false, false, false, false, false, false⟩
      ⟨true, true, "npm", true⟩ (str "My App")).1 = 0 ∧
    (IndexTs.createApp ⟨false, false, false, false, false, false⟩
      ⟨true, true, "npm", true⟩ (str "My App")).2 ≠ [] :=
  c5_positional_name_bypasses_validation _ _ _ (by decide) (by decide)
    rfl rfl rfl rfl

/-- C6: the PascalCase token is replaced with exactly the project name's
first character upper-cased followed by the remainder unchanged — literal
first-letter capitalization, not title-casing of each hyphenated part. -/
theorem c6_pascal_token_capitalizes_first_only (c : Char) (cs : List Char)
    (hv : validName (c :: cs) = true) :
    replaceAll pascalTok (toPascal (c :: cs)) pascalTok = upChar c :: cs := by
  rw [replaceAll_self _ pascalTok_ne_nil]
  rfl

/-- Witness for C6 at the concrete name `my-app`: the token becomes `My-app`
and not the title-cased `My-App`. -/
theorem c6_pascal_token_capitalizes_first_only_witness :
    validName (str "my-app") = true ∧
    replaceAll pascalTok (toPascal (str "my-app")) pascalTok = str "My-app" ∧
    str "My-app" ≠ str "My-App" := by
  refine ⟨by decide, ?_, by decide⟩
  exact (c6_pascal_token_capitalizes_first_only 'm' (str "y-app")
    (by decide)).trans (by decide)

set_option maxRecDepth 10000 in
theorem welcomeFallback_tokenFree : tokenFree welcomeFallback = true := by
  decide

theorem eraseWelcome_appTsx (fs : FS) :
    eraseWelcome fs appTsxPath = fs appTsxPath := by
  simp [eraseWelcome,
    show welcomeKitPath.isPrefixOf appTsxPath = false from by decide]

theorem eraseWelcome_pkg (fs : FS) : eraseWelcome fs pkgPath = fs pkgPath := by
  simp [eraseWelcome,
    show welcomeKitPath.isPrefixOf pkgPath = false from by decide]

/-- C7: when the showcase demo (welcome kit) is declined, a successful
generation of the script variant produces a tree in which every file under
`app/components/welcome` is absent and `app/app.tsx` equals the hardcoded
minimal fallback content exactly (the later rewriter passes leave the
fallback unchanged, as it contains no placeholder token). -/
theorem c7_welcome_kit_disabled_removes_and_overwrites
    (mrw : List Char → List Char) (template : FS) (n : List Char)
    (happ : (template appTsxPath).isSome = true)
    (hpkg : (template pkgPath).isSome = true) :
    ∃ fs', generateProjectB mrw template n false = some fs' ∧
      (∀ p, welcomeKitPath.isPrefixOf p = true → fs' p = none) ∧
      fs' appTsxPath = some welcomeFallback := by
  have hcond : (eraseWelcome template appTsxPath).isSome = true := by
    rw [eraseWelcome_appTsx]; exact happ
  obtain ⟨c, hc⟩ := Option.isSome_iff_exists.mp hpkg
  have hRapp : removeWelcomeKitFS template appTsxPath = some welcomeFallback := by
    unfold removeWelcomeKitFS
    rw [if_pos hcond]
    show (if appTsxPath = appTsxPath then some welcomeFallback
      else eraseWelcome template appTsxPath) = some welcomeFallback
    rw [if_pos rfl]
  have hRpkg : removeWelcomeKitFS template pkgPath = some c := by
    unfold removeWelcomeKitFS
    rw [if_pos hcond]
    show (if pkgPath = appTsxPath then some welcomeFallback
      else eraseWelcome template pkgPath) = some c
    rw [if_neg (show ¬ pkgPath = appTsxPath from by decide), eraseWelcome_pkg]
    exact hc
  have hRnone : ∀ p, welcomeKitPath.isPrefixOf p = true → p ≠ appTsxPath →
      removeWelcomeKitFS template p = none := by
    intro p hp hpe
    unfold removeWelcomeKitFS
    rw [if_pos hcond]
    show (if p = appTsxPath then some welcomeFallback
      else eraseWelcome template p) = none
    rw [if_neg hpe]
    unfold eraseWelcome
    rw [if_pos hp]
  refine ⟨rewriteFSB n (fun p => if p = pkgPath
      then some (mrw c) else removeWelcomeKitFS template p), ?_, ?_, ?_⟩
  · simp only [generateProjectB, Bool.false_eq_true, if_false, hRpkg,
      Option.map_some']
  · intro p hp
    have hppkg : p ≠ pkgPath := by
      intro he
      subst he
      rw [show welcomeKitPath.isPrefixOf pkgPath = false from by decide] at hp
      cases hp
    have hpapp : p ≠ appTsxPath := by
      intro he
      subst he
      rw [show welcomeKitPath.isPrefixOf appTsxPath = false from by decide] at hp
      cases hp
    have hfs2 : (if p = pkgPath then some (mrw c)
        else removeWelcomeKitFS template p) = none := by
      rw [if_neg hppkg]
      exact hRnone p hp hpapp
    cases hig : ignoredB p <;> simp [rewriteFSB, hig, hfs2]
  · simp [rewriteFSB, show ignoredB appTsxPath = false from by decide,
      show ¬ appTsxPath = pkgPath from by decide, hRapp,
      pipelineB_tokenFree welcomeFallback_tokenFree]

/-- Concrete template tree used by the C7 witness. -/
def tmplDemo : FS :=
  fun p =>
    if p = appTsxPath then some (str "welcome kit era entry")
    else if p = pkgPath then some (str "manifest")
    else if p = welcomeKitPath ++ ["welcome.tsx"] then some (str "demo")
    else none

/-- Witness for C7 at the concrete template `tmplDemo`. -/
theorem c7_welcome_kit_disabled_removes_and_overwrites_witness :
    ∃ fs', generateProjectB (fun c => c) tmplDemo (str "demo") false = some fs' ∧
      (∀ p, welcomeKitPath.isPrefixOf p = true → fs' p = none) ∧
      fs' appTsxPath = some welcomeFallback :=
  c7_welcome_kit_disabled_removes_and_overwrites (fun c => c) tmplDemo
    (str "demo") (by decide) (by decide)

/-- C8: for every configuration, failures of the `git init` subprocess or of
the dependency-install subprocess are warnings only: both variants still exit
with code 0, the failing step emits a warning, and the install step is
attempted whenever enabled, independently of whether git initialization
failed. -/
theorem c8_git_install_failures_nonfatal
    (env : Env) (cfg : Config) (name : List Char)
    (h1 : env.dirExists = false) (h2 : env.copyFails = false)
    (h3 : env.manifestFails = false) (h4 : env.rewriteFails = false) :
    (IndexTs.createApp env cfg name).1 = 0 ∧
    (ScriptTs.createApp env cfg name).1 = 0 ∧
    (cfg.git = true → env.gitFails = true →
      Event.warnGit ∈ (IndexTs.createApp env cfg name).2) ∧
    (cfg.install = true → env.installFails = true →
      Event.warnInstall ∈ (IndexTs.createApp env cfg name).2) ∧
    (cfg.install = true →
      Event.runInstall (getInstallCommand cfg.packageManager)
        ∈ (IndexTs.createApp env cfg name).2) := by
  refine ⟨?_, ?_, ?_, ?_, ?_⟩
  · simp [IndexTs.createApp, h1, h2, h3, h4]
  · simp [ScriptTs.createApp, h1, h2, h3, h4]
  · intro hg hgf
    simp [IndexTs.createApp, postCreate, h1, h2, h3, h4, hg, hgf]
  · intro hi hif
    simp [IndexTs.createApp, postCreate, h1, h2, h3, h4, hi, hif]
  · intro hi
    simp [IndexTs.createApp, postCreate, h1, h2, h3, h4, hi]

/-- Witness for C8 with both subprocesses failing. -/
theorem c8_git_install_failures_nonfatal_witness :
    (IndexTs.createApp ⟨false, false, false, false, true, true⟩
      ⟨true, true, "npm", true⟩ (str "demo-app")).1 = 0 ∧
    Event.warnGit ∈ (IndexTs.createApp ⟨false, false, false, false, true, true⟩
      ⟨true, true, "npm", true⟩ (str "demo-app")).2 ∧
    Event.warnInstall ∈ (IndexTs.createApp ⟨false, false, false, false, true, true⟩
      ⟨true, true, "npm", true⟩ (str "demo-app")).2 ∧
    Event.runInstall (getInstallCommand "npm")
      ∈ (IndexTs.createApp ⟨false, false, false, false, true, true⟩
        ⟨true, true, "npm", true⟩ (str "demo-app")).2 := by
  have h := c8_git_install_failures_nonfatal
    ⟨false, false, false, false, true, true⟩ ⟨true, true, "npm", true⟩
    (str "demo-app") rfl rfl rfl rfl
  exact ⟨h.1, h.2.2.1 rfl rfl, h.2.2.2.1 rfl rfl, h.2.2.2.2 rfl⟩

/-- C9: the Name Rewriter never modifies a file on its ignore list — files
under `node_modules`, `dist`, `out` or `.git`, root-level `*.log` files, and
(in the script variant, which excludes it) `package.json`: their contents
are the same before and after the rewrite step. -/
theorem c9_rewriter_skips_ignored_paths (n : List Char) (fs : FS)
    (p : List String) :
    (ignoredA p = true → rewriteFSA n fs p = fs p) ∧
    (ignoredB p = true → rewriteFSB n fs p = fs p) := by
  constructor <;> intro h <;> simp [rewriteFSA, rewriteFSB, h]

/-- Witness for C9: a file under `node_modules` (index.ts variant) and the
manifest (script variant) pass through unchanged, even though their contents
contain a placeholder token. -/
theorem c9_rewriter_skips_ignored_paths_witness :
    rewriteFSA (str "demo") (fun _ => some eraTok) ["node_modules", "x.js"]
      = (fun _ => some eraTok : FS) ["node_modules", "x.js"] ∧
    rewriteFSB (str "demo") (fun _ => some eraTok) pkgPath
      = (fun _ => some eraTok : FS) pkgPath :=
  ⟨(c9_rewriter_skips_ignored_paths _ _ _).1 (by decide),
   (c9_rewriter_skips_ignored_paths _ _ _).2 (by decide)⟩

/-- C10: `getInstallCommand` is total: it maps `yarn`, `pnpm` and `bun` to
their install commands and every other package-manager string, including
values outside the documented enumeration, to `npm install`. -/
theorem c10_getInstallCommand_total :
    getInstallCommand "yarn" = "yarn install" ∧
    getInstallCommand "pnpm" = "pnpm install" ∧
    getInstallCommand "bun" = "bun install" ∧
    ∀ pm : String, pm ≠ "yarn" → pm ≠ "pnpm" → pm ≠ "bun" →
      getInstallCommand pm = "npm install" := by
  refine ⟨by decide, by decide, by decide, ?_⟩
  intro pm hy hp hb
  simp [getInstallCommand, hy, hp, hb]

/-- Witness for C10 at the undocumented package manager `cargo`. -/
theorem c10_getInstallCommand_total_witness :
    getInstallCommand "cargo" = "npm install" :=
  c10_getInstallCommand_total.2.2.2 "cargo" (by decide) (by decide) (by decide)
